import Mathlib

/-!
Shallow embedding of the eFS package (efs.go).

The package extracts a subtree of an `fs.FS` (or a single file) into a fresh
temporary location and wraps that location in a `sync.Once`-guarded cleanup
closure, plus a signal-triggered cleanup listener.

Modelling conventions:
* Go strings (source paths) are `List Char`.
* Destination paths are lists of path segments *relative to the freshly
  created temporary directory*; the empty list denotes the temporary
  directory itself (`absTempDir` in the Go code).
* The on-disk state underneath the temporary location is an association list
  from destination paths to nodes; the entry `([], ddir)` is the temporary
  directory created by `os.MkdirTemp`.
* `fs.WalkDir` is represented by the list of callback invocations it performs
  (path, directory flag, walk error), exactly the data the Go callback sees;
  the callback body is translated literally and folded over that list with
  the early-abort behaviour of `fs.WalkDir` (a non-nil return stops the walk).
* `os.MkdirTemp` / `os.CreateTemp` success is an explicit boolean (their
  failure modes are environmental); the random component of the generated
  name is an explicit parameter.  `os.CreateTemp`'s name generation
  (the random string replaces the LAST `*` of the pattern) is modelled
  faithfully.
* Source paths are assumed to satisfy `fs.ValidPath` (slash-separated, no
  `.`/`..` elements), which is what `fs.WalkDir` delivers; under that
  assumption `filepath.Join(absTempDir, rel)` is splitting `rel` at slashes
  (or the temp dir itself when `rel` is `.`), and `filepath.Dir` drops the
  last segment.
-/

/-- A path segment of the destination filesystem. -/
abbrev Seg := List Char

/-- A destination path: segments relative to the temporary directory root. -/
abbrev DPath := List Seg

/-- A node of the destination (real, on-disk) filesystem. -/
inductive DNode
  | ddir
  | dfile (data : List Nat)
deriving DecidableEq

/-- The on-disk state underneath the temporary location. -/
abbrev Disk := List (DPath × DNode)

/-- Errors surfaced by the embedded operations. -/
inductive FsErr
  /-- fs.ReadFile: the path does not exist in the source filesystem. -/
  | notFound (p : List Char)
  /-- an injected source-side read failure (e.g. the badFS of the tests). -/
  | forcedRead (p : List Char)
  /-- os.MkdirAll: some ancestor (or the path itself) exists as a file. -/
  | notADirErr (p : DPath)
  /-- os.WriteFile: the destination exists as a directory. -/
  | isADirErr (p : DPath)
  /-- os.WriteFile: the destination's parent directory is missing. -/
  | noParentErr (p : DPath)
  /-- an error handed to the walk callback by fs.WalkDir itself. -/
  | walkAbort (code : Nat)
  /-- os.MkdirTemp failed. -/
  | mkdirTempFail
  /-- os.CreateTemp failed. -/
  | createTempFail
  /-- writing the temporary file failed. -/
  | writeTempFail
  /-- closing the temporary file failed. -/
  | closeTempFail
  /-- the `fmt.Errorf("read file %q: %w", ...)` wrapper of ExtractFile. -/
  | readCtx (p : List Char) (e : FsErr)
deriving DecidableEq

/-- The source filesystem: file paths with contents, plus the set of paths
whose read is made to fail (modelling sources like the tests' badFS). -/
structure SrcFS where
  files : List (List Char × List Nat)
  failRead : List (List Char)
deriving DecidableEq

/-- Association-list lookup over the source files. -/
def lookupSrc : List (List Char × List Nat) → List Char → Option (List Nat)
  | [], _ => none
  | e :: rest, p => if e.1 = p then some e.2 else lookupSrc rest p

/-- `fs.ReadFile(fsys, path)`. -/
def readFileFS (fsys : SrcFS) (p : List Char) : Except FsErr (List Nat) :=
  if p ∈ fsys.failRead then .error (.forcedRead p)
  else
    match lookupSrc fsys.files p with
    | some data => .ok data
    | none => .error (.notFound p)

/-- `strings.CutPrefix(s, q)`: `some rest` when `s = q ++ rest`. -/
def cutPfx : List Char → List Char → Option (List Char)
  | s, [] => some s
  | [], _ :: _ => none
  | c :: cs, q :: qs => if c = q then cutPfx cs qs else none

/-- The relative-path computation of ExtractToTemp's walk callback
(efs.go lines 84-92): strip a leading `root ++ "/"` unless the root is the
current-directory sentinel; the root itself maps to `"."` defensively. -/
def relPath (root path : List Char) : List Char :=
  if root ≠ ['.'] ∧ root ≠ [] then
    match cutPfx path (root ++ ['/']) with
    | some r => r
    | none => if path = root then ['.'] else path
  else path

/-- Split a slash-separated path into its segments. -/
def splitSlash : List Char → List Seg
  | [] => [[]]
  | c :: cs =>
    if c = '/' then [] :: splitSlash cs
    else
      match splitSlash cs with
      | [] => [[c]]
      | s :: rest => (c :: s) :: rest

/-- The first slash-separated segment of a path. -/
def firstSeg : List Char → Seg
  | [] => []
  | c :: cs => if c = '/' then [] else c :: firstSeg cs

/-- `filepath.Join(absTempDir, rel)` expressed relative to the temporary
directory: `rel = "."` (and, after cleaning, `""`) is the directory itself. -/
def joinTmp (rel : List Char) : DPath :=
  if rel = ['.'] ∨ rel = [] then [] else splitSlash rel

/-- Destination-side lookup. -/
def lookupD : Disk → DPath → Option DNode
  | [], _ => none
  | e :: rest, p => if e.1 = p then some e.2 else lookupD rest p

/-- Insert or overwrite a destination node. -/
def setNode : Disk → DPath → DNode → Disk
  | [], p, n => [(p, n)]
  | e :: rest, p, n => if e.1 = p then (p, n) :: rest else e :: setNode rest p n

/-- `os.MkdirAll` worker: ensure every ancestor `done ++ todo.take k` is a
directory, creating the missing ones; an ancestor that exists as a file is an
error (in which case Go's MkdirAll has created nothing, since it would have
failed on the stat of that ancestor before creating anything). -/
def mkdirSegs : Disk → DPath → List Seg → Except FsErr Disk
  | d, _, [] => .ok d
  | d, done, s :: rest =>
    match lookupD d (done ++ [s]) with
    | some .ddir => mkdirSegs d (done ++ [s]) rest
    | some (.dfile _) => .error (.notADirErr (done ++ [s]))
    | none => mkdirSegs (setNode d (done ++ [s]) .ddir) (done ++ [s]) rest

/-- `os.MkdirAll(p, 0o755)` (already-existing directories are not an error). -/
def mkdirAll (d : Disk) (p : DPath) : Except FsErr Disk :=
  mkdirSegs d [] p

/-- `os.WriteFile(p, data, 0o644)`: fails when `p` is a directory or its
parent is missing or not a directory; otherwise creates or overwrites. -/
def writeFile (d : Disk) (p : DPath) (data : List Nat) : Except FsErr Disk :=
  match lookupD d p with
  | some .ddir => .error (.isADirErr p)
  | _ =>
    match lookupD d p.dropLast with
    | some .ddir => .ok (setNode d p (.dfile data))
    | _ => .error (.noParentErr p)

/-- `leadsTo p q`: `p` is an initial run of segments of `q`. -/
def leadsTo : DPath → DPath → Bool
  | [], _ => true
  | _ :: _, [] => false
  | a :: as, b :: bs => if a = b then leadsTo as bs else false

/-- `os.RemoveAll(p)`: drop the node at `p` and everything below it; a
missing path is not an error (the operation is total). -/
def removeAll (d : Disk) (p : DPath) : Disk :=
  d.filter (fun e => ! leadsTo p e.1)

/-- One callback invocation delivered by `fs.WalkDir`: the walked path, its
directory flag, and the error (if any) WalkDir hands to the callback. -/
structure WalkEv where
  path : List Char
  isDir : Bool
  err : Option FsErr
deriving DecidableEq

/-- The walk callback of ExtractToTemp (efs.go lines 74-109), one invocation:
returns the disk after the callback ran together with the error the callback
returned, if any.  MkdirAll effects that preceded a later failure persist. -/
def walkStep (fsys : SrcFS) (root : List Char) (d : Disk) (ev : WalkEv) :
    Disk × Option FsErr :=
  match ev.err with
  | some e => (d, some e)
  | none =>
    if ev.path = root ∧ ev.isDir then (d, none)
    else
      if ev.isDir then
        match mkdirAll d (joinTmp (relPath root ev.path)) with
        | .ok d2 => (d2, none)
        | .error e => (d, some e)
      else
        match mkdirAll d (joinTmp (relPath root ev.path)).dropLast with
        | .error e => (d, some e)
        | .ok d2 =>
          match readFileFS fsys ev.path with
          | .error e => (d2, some e)
          | .ok data =>
            match writeFile d2 (joinTmp (relPath root ev.path)) data with
            | .ok d3 => (d3, none)
            | .error e => (d2, some e)

/-- `fs.WalkDir`: fold the callback over its invocation sequence, stopping at
the first error (our callback never returns SkipDir). -/
def runWalk (fsys : SrcFS) (root : List Char) : Disk → List WalkEv → Disk × Option FsErr
  | d, [] => (d, none)
  | d, ev :: rest =>
    match walkStep fsys root d ev with
    | (d2, none) => runWalk fsys root d2 rest
    | (d2, some e) => (d2, some e)

/-- The state of a `sync.Once`-guarded cleanup closure of ExtractToTemp
(efs.go lines 68-71): the captured target path and the once flag. -/
structure Guard where
  target : DPath
  fired : Bool
deriving DecidableEq

/-- One invocation of the cleanup closure:
`once.Do(func() { _ = os.RemoveAll(absTempDir) })` — the removal runs only on
the first call, its error is discarded, later calls do nothing. -/
def fireGuard (g : Guard) (d : Disk) : Guard × Disk :=
  if g.fired then (g, d)
  else ({ g with fired := true }, removeAll d g.target)

/-- The result of ExtractToTemp: returned path (`none` models the empty
string), returned cleanup function (`none` models nil), returned error, and
the residual on-disk state underneath the temporary location. -/
structure TreeOut where
  dest : Option (List Char)
  cleanup : Option Guard
  err : Option FsErr
  disk : Disk
deriving DecidableEq

/-- Go normalization of the root argument: empty string becomes ".". -/
def normRoot (root : List Char) : List Char :=
  if root = [] then ['.'] else root

/-- `ExtractToTemp(fsys, root, tempPrefix, tempDir)` (efs.go lines 45-116).
`mkOk` is whether `os.MkdirTemp` succeeds, `tmpName` the absolute name the
platform picked for the fresh directory, `walk` the callback sequence
`fs.WalkDir(fsys, root)` delivers.  The caller's name pieces `pfx` and
`baseDir0` determine only where the platform puts the directory, which the
temp-rooted disk model abstracts; `baseDir0` is normalized as in the code. -/
def ExtractToTemp (fsys : SrcFS) (root0 pfx baseDir0 : List Char)
    (mkOk : Bool) (tmpName : List Char) (walk : List WalkEv) : TreeOut :=
  let root := normRoot root0
  let _baseDir := if baseDir0 = [] then ['.'] else baseDir0
  if mkOk then
    let res := runWalk fsys root [([], DNode.ddir)] walk
    match res.2 with
    | some e =>
      { dest := none, cleanup := none, err := some e, disk := removeAll res.1 [] }
    | none =>
      { dest := some tmpName, cleanup := some { target := [], fired := false },
        err := none, disk := res.1 }
  else
    { dest := none, cleanup := none, err := some FsErr.mkdirTempFail, disk := [] }

/-- `filepath.Ext` worker over the reversed character list: scan from the end
of the path, stop at the last element's boundary (`/`); a `.` yields the
suffix from that dot on. -/
def extRev : List Char → List Char → List Char
  | [], _ => []
  | c :: rest, acc =>
    if c = '.' then '.' :: acc
    else if c = '/' then []
    else extRev rest (c :: acc)

/-- `filepath.Ext(p)`: the suffix of the last element starting at its final
dot, empty when there is none. -/
def extOf (p : List Char) : List Char := extRev p.reverse []

/-- Find the last `*` of a CreateTemp pattern: `some (before, after)` with
`pat = before ++ "*" ++ after` and `after` star-free. -/
def splitLastStar : List Char → Option (List Char × List Char)
  | [] => none
  | c :: rest =>
    match splitLastStar rest with
    | some (b, a) => some (c :: b, a)
    | none => if c = '*' then some ([], rest) else none

/-- `os.CreateTemp` name generation: the random string replaces the last `*`
of the pattern, or is appended when the pattern has no `*`. -/
def applyPat (pat rand : List Char) : List Char :=
  match splitLastStar pat with
  | some (b, a) => b ++ rand ++ a
  | none => pat ++ rand

/-- The state of the `sync.Once`-guarded cleanup closure of ExtractFile
(efs.go lines 176-179); its target is the single created file. -/
structure FGuard where
  fired : Bool
deriving DecidableEq

/-- One invocation of ExtractFile's cleanup closure:
`once.Do(func() { _ = os.Remove(absFilePath) })` over the created file's
state (`none` = absent); removal errors are discarded. -/
def fireFGuard (g : FGuard) (st : Option (List Nat)) : FGuard × Option (List Nat) :=
  if g.fired then (g, st) else ({ fired := true }, none)

/-- `os.Remove` on the temporary file (its error is discarded by the code
that calls it in the failure paths). -/
def osRemove : Option (List Nat) → Option (List Nat) :=
  fun _ => none

/-- The result of ExtractFile: returned path, cleanup, error, and the
temporary file's on-disk state (`none` = no file remains). -/
structure FileOut where
  dest : Option (List Char)
  cleanup : Option FGuard
  err : Option FsErr
  tmpFile : Option (List Nat)
deriving DecidableEq

/-- `ExtractFile(fsys, filePath, tempPrefix, tempDir)` (efs.go lines 136-182).
`createOk`, `writeOk`, `closeOk` are whether `os.CreateTemp`, `Write` and
`Close` succeed; `rand` is the random component the platform picks. -/
def ExtractFile (fsys : SrcFS) (filePath pfx baseDir0 : List Char)
    (createOk writeOk closeOk : Bool) (rand : List Char) : FileOut :=
  let _baseDir := if baseDir0 = [] then ['.'] else baseDir0
  match readFileFS fsys filePath with
  | .error e =>
    { dest := none, cleanup := none, err := some (.readCtx filePath e), tmpFile := none }
  | .ok data =>
    if createOk then
      let name := applyPat (pfx ++ ['-', '*'] ++ extOf filePath) rand
      let created : Option (List Nat) := some []
      if writeOk then
        let written : Option (List Nat) := some data
        if closeOk then
          { dest := some name, cleanup := some { fired := false }, err := none,
            tmpFile := written }
        else
          { dest := none, cleanup := none, err := some .closeTempFail,
            tmpFile := osRemove written }
      else
        { dest := none, cleanup := none, err := some .writeTempFail,
          tmpFile := osRemove created }
    else
      { dest := none, cleanup := none, err := some .createTempFail, tmpFile := none }

/-- A Go channel's state. -/
inductive ChanSt
  | chanOpen
  | chanClosed
deriving DecidableEq

/-- The runtime panic relevant here. -/
inductive GoPanic
  | closeOfClosed
deriving DecidableEq

/-- The listener's internal state: the `stopped` channel and whether the
`signal.Notify` registration is still active. -/
structure ListenerSt where
  stopped : ChanSt
  watching : Bool
deriving DecidableEq

/-- `StartCleanupListener(dir)` (efs.go lines 188-214) right after returning:
the `stopped` channel is open and signal delivery is registered. -/
def StartCleanupListener : ListenerSt :=
  { stopped := .chanOpen, watching := true }

/-- The stop function StartCleanupListener returns (efs.go lines 210-213):
`close(stopped); signal.Stop(sigCh)` — the close is unconditional, and in Go
closing an already-closed channel panics before `signal.Stop` runs. -/
def stopListener (l : ListenerSt) : Except GoPanic ListenerSt :=
  match l.stopped with
  | .chanClosed => .error .closeOfClosed
  | .chanOpen => .ok { stopped := .chanClosed, watching := false }

/-- An `os.Signal` value: either a `syscall.Signal` carrying its number, or
some other implementation of the interface. -/
inductive GoSignal
  | posix (n : Nat)
  | nonPosix
deriving DecidableEq

/-- `os.Interrupt` (SIGINT, number 2 on POSIX platforms). -/
def osInterrupt : GoSignal := .posix 2

/-- `syscall.SIGTERM` (number 15). -/
def sigterm : GoSignal := .posix 15

/-- `syscall.SIGHUP` (number 1). -/
def sighup : GoSignal := .posix 1

/-- The three signals registered by `signal.Notify` in StartCleanupListener. -/
def registeredSignals : List GoSignal := [osInterrupt, sigterm, sighup]

/-- The exit status of the listener's signal branch (efs.go lines 200-204):
`128 + int(s)` when the signal is a `syscall.Signal`, else `1`. -/
def exitStatus : GoSignal → Nat
  | .posix n => 128 + n
  | .nonPosix => 1

/-- The listener's signal branch: best-effort removal of the registered path
(errors logged, not escalated), then process exit with the derived status. -/
def listenerFire (dir : DPath) (d : Disk) (sig : GoSignal) : Disk × Nat :=
  (removeAll d dir, exitStatus sig)

/-- The top-level destination name a walked path contributes: the first
segment of the path relative to the root. -/
def childOf (root : List Char) (ev : WalkEv) : Option Seg :=
  match cutPfx ev.path (root ++ ['/']) with
  | some s => some (firstSeg s)
  | none => none

/-- All top-level destination names the walk contributes. -/
def walkChildren (root : List Char) (walk : List WalkEv) : List Seg :=
  walk.filterMap (childOf root)

/-! ### Basic lemmas about the destination filesystem operations -/

theorem leadsTo_nil_left (q : DPath) : leadsTo [] q = true := rfl

theorem removeAll_root (d : Disk) : removeAll d [] = [] := by
  induction d with
  | nil => rfl
  | cons e rest ih => simpa [removeAll, leadsTo] using ih

theorem cutPfx_append (q s : List Char) : cutPfx (q ++ s) q = some s := by
  induction q with
  | nil => cases s <;> rfl
  | cons c cs ih => simp [cutPfx, ih]

theorem cutPfx_too_long (s : List Char) (c : Char) (ts : List Char) :
    cutPfx s (s ++ c :: ts) = none := by
  induction s with
  | nil => rfl
  | cons a ss ih => simp [cutPfx, ih]

theorem relPath_dot (p : List Char) : relPath ['.'] p = p := by
  simp [relPath]

theorem relPath_strip (root s : List Char) (h1 : root ≠ ['.']) (h2 : root ≠ []) :
    relPath root (root ++ '/' :: s) = s := by
  unfold relPath
  rw [if_pos ⟨h1, h2⟩, List.append_cons, cutPfx_append]

theorem relPath_self (root : List Char) (h1 : root ≠ ['.']) (h2 : root ≠ []) :
    relPath root root = ['.'] := by
  unfold relPath
  rw [if_pos ⟨h1, h2⟩, cutPfx_too_long root '/' []]
  simp

theorem mem_setNode {d : Disk} {p : DPath} {n : DNode} {e : DPath × DNode}
    (h : e ∈ setNode d p n) : e ∈ d ∨ e = (p, n) := by
  induction d with
  | nil =>
    simp only [setNode, List.mem_singleton] at h
    exact Or.inr h
  | cons f rest ih =>
    simp only [setNode] at h
    by_cases hf : f.1 = p
    · rw [if_pos hf] at h
      rcases List.mem_cons.mp h with h | h
      · exact Or.inr h
      · exact Or.inl (List.mem_cons_of_mem f h)
    · rw [if_neg hf] at h
      rcases List.mem_cons.mp h with h | h
      · exact Or.inl (h ▸ List.mem_cons_self f rest)
      · rcases ih h with h | h
        · exact Or.inl (List.mem_cons_of_mem f h)
        · exact Or.inr h

theorem lookupD_setNode_self (d : Disk) (p : DPath) (n : DNode) :
    lookupD (setNode d p n) p = some n := by
  induction d with
  | nil => simp [setNode, lookupD]
  | cons f rest ih =>
    by_cases hf : f.1 = p
    · simp [setNode, hf, lookupD]
    · simp [setNode, hf, lookupD, ih]

theorem lookupD_setNode_isSome {d : Disk} {q : DPath} (p : DPath) (n : DNode)
    (h : (lookupD d q).isSome = true) :
    (lookupD (setNode d p n) q).isSome = true := by
  induction d with
  | nil => simp [lookupD] at h
  | cons f rest ih =>
    by_cases hf : f.1 = p
    · by_cases hq : p = q
      · simp [setNode, if_pos hf, lookupD, if_pos hq]
      · have hfq : ¬ f.1 = q := fun hh => hq (hf.symm.trans hh)
        simp only [lookupD, if_neg hfq] at h
        simp only [setNode, if_pos hf, lookupD, if_neg hq]
        exact h
    · simp only [setNode, if_neg hf]
      by_cases hq : f.1 = q
      · simp [lookupD, if_pos hq]
      · simp only [lookupD, if_neg hq] at h ⊢
        exact ih h

theorem lookupD_isSome_mem {d : Disk} {p : DPath}
    (h : (lookupD d p).isSome = true) : ∃ n, (p, n) ∈ d := by
  induction d with
  | nil => simp [lookupD] at h
  | cons f rest ih =>
    by_cases hf : f.1 = p
    · exact ⟨f.2, by simp [← hf]⟩
    · simp only [lookupD, if_neg hf] at h
      rcases ih h with ⟨n, hn⟩
      exact ⟨n, List.mem_cons_of_mem f hn⟩

theorem mkdirSegs_mem :
    ∀ (todo : List Seg) (d : Disk) (done : DPath) (d' : Disk),
      mkdirSegs d done todo = .ok d' →
      ∀ e ∈ d', e ∈ d ∨ ∃ t, t ≠ [] ∧ leadsTo t todo = true ∧ e.1 = done ++ t := by
  intro todo
  induction todo with
  | nil =>
    intro d done d' h e he
    simp only [mkdirSegs, Except.ok.injEq] at h
    exact Or.inl (h ▸ he)
  | cons s rest ih =>
    intro d done d' h e he
    unfold mkdirSegs at h
    split at h
    · rcases ih _ _ _ h e he with h1 | ⟨t, ht1, ht2, ht3⟩
      · exact Or.inl h1
      · refine Or.inr ⟨s :: t, by simp, ?_, by simp [ht3]⟩
        simp [leadsTo, ht2]
    · exact absurd h (by simp)
    · rcases ih _ _ _ h e he with h1 | ⟨t, ht1, ht2, ht3⟩
      · rcases mem_setNode h1 with h2 | h2
        · exact Or.inl h2
        · refine Or.inr ⟨[s], by simp, ?_, by simp [h2]⟩
          simp [leadsTo]
      · refine Or.inr ⟨s :: t, by simp, ?_, by simp [ht3]⟩
        simp [leadsTo, ht2]

theorem mkdirSegs_mono :
    ∀ (todo : List Seg) (d : Disk) (done : DPath) (d' : Disk) (q : DPath),
      mkdirSegs d done todo = .ok d' →
      (lookupD d q).isSome = true → (lookupD d' q).isSome = true := by
  intro todo
  induction todo with
  | nil =>
    intro d done d' q h hq
    simp only [mkdirSegs, Except.ok.injEq] at h
    exact h ▸ hq
  | cons s rest ih =>
    intro d done d' q h hq
    unfold mkdirSegs at h
    split at h
    · exact ih _ _ _ _ h hq
    · exact absurd h (by simp)
    · exact ih _ _ _ _ h (lookupD_setNode_isSome _ _ hq)

theorem mkdirSegs_creates :
    ∀ (rest : List Seg) (d : Disk) (done : DPath) (s : Seg) (d' : Disk),
      mkdirSegs d done (s :: rest) = .ok d' →
      (lookupD d' (done ++ [s])).isSome = true := by
  intro rest d done s d' h
  unfold mkdirSegs at h
  split at h
  case h_1 heq => exact mkdirSegs_mono _ _ _ _ _ h (by simp [heq])
  case h_2 => exact absurd h (by simp)
  case h_3 =>
    exact mkdirSegs_mono _ _ _ _ _ h
      (by simp [lookupD_setNode_self])

theorem writeFile_ok_mem {d : Disk} {p : DPath} {data : List Nat} {d' : Disk}
    (h : writeFile d p data = .ok d') :
    ∀ e ∈ d', e ∈ d ∨ e = (p, .dfile data) := by
  intro e he
  unfold writeFile at h
  split at h
  · exact absurd h (by simp)
  · split at h
    · rw [Except.ok.injEq] at h
      rw [← h] at he
      exact mem_setNode he
    · exact absurd h (by simp)

theorem writeFile_ok_mono {d : Disk} {p : DPath} {data : List Nat} {d' : Disk}
    {q : DPath} (h : writeFile d p data = .ok d')
    (hq : (lookupD d q).isSome = true) : (lookupD d' q).isSome = true := by
  unfold writeFile at h
  split at h
  · exact absurd h (by simp)
  · split at h
    · rw [Except.ok.injEq] at h
      rw [← h]
      exact lookupD_setNode_isSome p _ hq
    · exact absurd h (by simp)

theorem writeFile_ok_self {d : Disk} {p : DPath} {data : List Nat} {d' : Disk}
    (h : writeFile d p data = .ok d') : (lookupD d' p).isSome = true := by
  unfold writeFile at h
  split at h
  · exact absurd h (by simp)
  · split at h
    · rw [Except.ok.injEq] at h
      rw [← h, lookupD_setNode_self]
      rfl
    · exact absurd h (by simp)

theorem cutPfx_some_eq :
    ∀ (q p r : List Char), cutPfx p q = some r → p = q ++ r := by
  intro q
  induction q with
  | nil =>
    intro p r h
    simpa [cutPfx] using h
  | cons c cs ih =>
    intro p r h
    cases p with
    | nil => simp [cutPfx] at h
    | cons a ps =>
      by_cases hac : a = c
      · simp only [cutPfx, if_pos hac] at h
        simp [hac, ih ps r h]
      · simp [cutPfx, hac] at h

theorem leadsTo_cons {a : Seg} {as q : DPath} (h : leadsTo (a :: as) q = true) :
    ∃ qs, q = a :: qs := by
  cases q with
  | nil => simp [leadsTo] at h
  | cons b bs =>
    by_cases hab : a = b
    · exact ⟨bs, by rw [hab]⟩
    · simp [leadsTo, hab] at h

theorem splitSlash_ne_nil (s : List Char) : splitSlash s ≠ [] := by
  induction s with
  | nil => simp [splitSlash]
  | cons c cs ih =>
    by_cases hc : c = '/'
    · simp [splitSlash, hc]
    · simp only [splitSlash, if_neg hc]
      rcases hsp : splitSlash cs with _ | ⟨sg, rest⟩
      · simp
      · simp

theorem splitSlash_head (s : List Char) :
    ∃ t, splitSlash s = firstSeg s :: t := by
  induction s with
  | nil => exact ⟨[], rfl⟩
  | cons c cs ih =>
    by_cases hc : c = '/'
    · refine ⟨splitSlash cs, ?_⟩
      simp [splitSlash, firstSeg, hc]
    · rcases ih with ⟨t, ht⟩
      refine ⟨t, ?_⟩
      simp only [splitSlash, if_neg hc, ht, firstSeg]

theorem walkStep_mono (fsys : SrcFS) (root : List Char) (d : Disk) (ev : WalkEv)
    (q : DPath) (hq : (lookupD d q).isSome = true) :
    (lookupD (walkStep fsys root d ev).1 q).isSome = true := by
  unfold walkStep
  split
  · exact hq
  · split
    · exact hq
    · split
      · split
        · next d2 hm => exact mkdirSegs_mono _ _ _ _ _ hm hq
        · exact hq
      · split
        · exact hq
        · next d2 hm =>
          split
          · exact mkdirSegs_mono _ _ _ _ _ hm hq
          · split
            · next d3 hw => exact writeFile_ok_mono hw (mkdirSegs_mono _ _ _ _ _ hm hq)
            · exact mkdirSegs_mono _ _ _ _ _ hm hq

theorem runWalk_mono (fsys : SrcFS) (root : List Char) :
    ∀ (walk : List WalkEv) (d : Disk) (q : DPath),
      (lookupD d q).isSome = true →
      (lookupD (runWalk fsys root d walk).1 q).isSome = true := by
  intro walk
  induction walk with
  | nil => intro d q h; exact h
  | cons ev rest ih =>
    intro d q h
    have hstep := walkStep_mono fsys root d ev q h
    unfold runWalk
    rcases hs : walkStep fsys root d ev with ⟨d2, oe⟩
    rw [hs] at hstep
    rcases oe with _ | e
    · exact ih d2 q hstep
    · exact hstep

theorem joinTmp_splitSlash {s : List Char} (hs1 : s ≠ []) (hs2 : s ≠ ['.']) :
    joinTmp s = splitSlash s := by
  unfold joinTmp
  rw [if_neg]
  simp [hs1, hs2]

theorem root_ne_child (root s : List Char) : root ++ '/' :: s ≠ root := by
  intro hh
  have := congrArg List.length hh
  simp at this


theorem walkStep_tops (fsys : SrcFS) (root : List Char) (A : List Seg)
    (d : Disk) (ev : WalkEv)
    (h1 : root ≠ ['.']) (h2 : root ≠ [])
    (hshape : (ev.path = root ∧ ev.isDir = true) ∨
      ∃ s, ev.path = root ++ '/' :: s ∧ s ≠ [] ∧ s ≠ ['.'] ∧ firstSeg s ∈ A)
    (hd : ∀ e ∈ d, e.1 = [] ∨ ∃ n rest, e.1 = n :: rest ∧ n ∈ A) :
    ∀ e ∈ (walkStep fsys root d ev).1,
      e.1 = [] ∨ ∃ n rest, e.1 = n :: rest ∧ n ∈ A := by
  rcases herr : ev.err with _ | er
  · rcases hshape with ⟨hp, hdirT⟩ | ⟨s, hps, hs1, hs2, hsA⟩
    · intro e he
      have hred : walkStep fsys root d ev = (d, none) := by
        unfold walkStep
        rw [herr]
        simp [hp, hdirT]
      rw [hred] at he
      exact hd e he
    · have hrel : relPath root ev.path = s := by
        rw [hps]; exact relPath_strip root s h1 h2
      have hjoin : joinTmp (relPath root ev.path) = splitSlash s := by
        rw [hrel]; exact joinTmp_splitSlash hs1 hs2
      rcases splitSlash_head s with ⟨t, ht⟩
      have hskip : ¬ (ev.path = root ∧ ev.isDir = true) := by
        rintro ⟨hq, -⟩
        exact root_ne_child root s (hps ▸ hq)
      have hnew : ∀ (q tl : DPath) (f : DPath × DNode),
          leadsTo q (firstSeg s :: tl) = true → q ≠ [] → f.1 = [] ++ q →
          f.1 = [] ∨ ∃ n rest, f.1 = n :: rest ∧ n ∈ A := by
        intro q tl f hlt hq hfq
        rcases q with _ | ⟨a, as⟩
        · exact absurd rfl hq
        · rcases leadsTo_cons hlt with ⟨qs, hqs⟩
          have ha : a = firstSeg s := by
            injection hqs with hh1 hh2
            exact hh1.symm
          exact Or.inr ⟨a, as, by simpa using hfq, ha ▸ hsA⟩
      rcases hdir : ev.isDir with _ | _
      · -- a file node
        have hred : walkStep fsys root d ev =
            match mkdirAll d (joinTmp (relPath root ev.path)).dropLast with
            | .error e => (d, some e)
            | .ok d2 =>
              match readFileFS fsys ev.path with
              | .error e => (d2, some e)
              | .ok data =>
                match writeFile d2 (joinTmp (relPath root ev.path)) data with
                | .ok d3 => (d3, none)
                | .error e => (d2, some e) := by
          unfold walkStep
          rw [herr]
          simp [hskip, hdir]
        intro e he
        rw [hred] at he
        rcases hm : mkdirAll d ((joinTmp (relPath root ev.path)).dropLast) with e2 | d2
        · simp only [hm] at he
          exact hd e he
        · simp only [hm] at he
          have hd2 : ∀ f ∈ d2, f.1 = [] ∨ ∃ n rest, f.1 = n :: rest ∧ n ∈ A := by
            intro f hf
            rcases mkdirSegs_mem _ _ _ _ hm f hf with hmem | ⟨t', ht'1, ht'2, ht'3⟩
            · exact hd f hmem
            · rw [hjoin, ht] at ht'2
              cases t with
              | nil =>
                rw [List.dropLast_single] at ht'2
                rcases t' with _ | ⟨a, as⟩
                · exact absurd rfl ht'1
                · simp [leadsTo] at ht'2
              | cons b bs =>
                rw [List.dropLast_cons₂] at ht'2
                exact hnew t' _ f ht'2 ht'1 ht'3
          rcases hrf : readFileFS fsys ev.path with e2 | data
          · simp only [hrf] at he
            exact hd2 e he
          · simp only [hrf] at he
            rcases hwf : writeFile d2 (joinTmp (relPath root ev.path)) data with e2 | d3
            · simp only [hwf] at he
              exact hd2 e he
            · simp only [hwf] at he
              rcases writeFile_ok_mem hwf e he with hmem | hdst
              · exact hd2 e hmem
              · refine Or.inr ⟨firstSeg s, t, ?_, hsA⟩
                rw [hdst, hjoin, ht]
      · -- a directory node
        have hne : ev.path ≠ root := fun hq => hskip ⟨hq, hdir⟩
        have hred : walkStep fsys root d ev =
            match mkdirAll d (joinTmp (relPath root ev.path)) with
            | .ok d2 => (d2, none)
            | .error e => (d, some e) := by
          unfold walkStep
          rw [herr]
          simp [hne, hdir]
        intro e he
        rw [hred] at he
        rcases hm : mkdirAll d (joinTmp (relPath root ev.path)) with e2 | d2
        · rw [hm] at he
          exact hd e he
        · rw [hm] at he
          rcases mkdirSegs_mem _ _ _ _ hm e he with hmem | ⟨t', ht'1, ht'2, ht'3⟩
          · exact hd e hmem
          · rw [hjoin, ht] at ht'2
            exact hnew t' t e ht'2 ht'1 ht'3
  · intro e he
    have hred : walkStep fsys root d ev = (d, some er) := by
      unfold walkStep
      rw [herr]
    rw [hred] at he
    exact hd e he

theorem walkStep_creates (fsys : SrcFS) (root : List Char) (d : Disk) (ev : WalkEv)
    (s : List Char) (hps : ev.path = root ++ '/' :: s) (hs1 : s ≠ []) (hs2 : s ≠ ['.'])
    (h1 : root ≠ ['.']) (h2 : root ≠ [])
    (hok : (walkStep fsys root d ev).2 = none) :
    (lookupD (walkStep fsys root d ev).1 [firstSeg s]).isSome = true := by
  rcases herr : ev.err with _ | er
  · have hrel : relPath root ev.path = s := by
      rw [hps]; exact relPath_strip root s h1 h2
    have hjoin : joinTmp (relPath root ev.path) = splitSlash s := by
      rw [hrel]; exact joinTmp_splitSlash hs1 hs2
    rcases splitSlash_head s with ⟨t, ht⟩
    have hskip : ¬ (ev.path = root ∧ ev.isDir = true) := by
      rintro ⟨hq, -⟩
      exact root_ne_child root s (hps ▸ hq)
    rcases hdir : ev.isDir with _ | _
    · -- a file node
      have hred : walkStep fsys root d ev =
          match mkdirAll d (joinTmp (relPath root ev.path)).dropLast with
          | .error e => (d, some e)
          | .ok d2 =>
            match readFileFS fsys ev.path with
            | .error e => (d2, some e)
            | .ok data =>
              match writeFile d2 (joinTmp (relPath root ev.path)) data with
              | .ok d3 => (d3, none)
              | .error e => (d2, some e) := by
        unfold walkStep
        rw [herr]
        simp [hskip, hdir]
      rw [hred] at hok ⊢
      rcases hm : mkdirAll d ((joinTmp (relPath root ev.path)).dropLast) with e2 | d2
      · simp [hm] at hok
      · simp only [hm] at hok ⊢
        rcases hrf : readFileFS fsys ev.path with e2 | data
        · simp [hrf] at hok
        · simp only [hrf] at hok ⊢
          rcases hwf : writeFile d2 (joinTmp (relPath root ev.path)) data with e2 | d3
          · simp [hwf] at hok
          · simp only [hwf] at hok ⊢
            cases t with
            | nil =>
              have hself := writeFile_ok_self hwf
              rw [hjoin, ht] at hself
              exact hself
            | cons b bs =>
              have h0 : (joinTmp (relPath root ev.path)).dropLast =
                  firstSeg s :: (b :: bs).dropLast := by
                rw [hjoin, ht, List.dropLast_cons₂]
              rw [h0] at hm
              have hcr := mkdirSegs_creates _ _ _ _ _ hm
              exact writeFile_ok_mono hwf (by simpa using hcr)
    · -- a directory node
      have hne : ev.path ≠ root := fun hq => hskip ⟨hq, hdir⟩
      have hred : walkStep fsys root d ev =
          match mkdirAll d (joinTmp (relPath root ev.path)) with
          | .ok d2 => (d2, none)
          | .error e => (d, some e) := by
        unfold walkStep
        rw [herr]
        simp [hne, hdir]
      rw [hred] at hok ⊢
      rcases hm : mkdirAll d (joinTmp (relPath root ev.path)) with e2 | d2
      · simp [hm] at hok
      · simp only [hm] at hok ⊢
        have h0 : joinTmp (relPath root ev.path) = firstSeg s :: t := by
          rw [hjoin, ht]
        rw [h0] at hm
        have hcr := mkdirSegs_creates _ _ _ _ _ hm
        simpa using hcr
  · have hred : walkStep fsys root d ev = (d, some er) := by
      unfold walkStep
      rw [herr]
    rw [hred] at hok
    exact absurd hok (by simp)

theorem runWalk_tops (fsys : SrcFS) (root : List Char) (A : List Seg)
    (h1 : root ≠ ['.']) (h2 : root ≠ []) :
    ∀ (walk : List WalkEv) (d : Disk),
      (∀ ev ∈ walk, (ev.path = root ∧ ev.isDir = true) ∨
        ∃ s, ev.path = root ++ '/' :: s ∧ s ≠ [] ∧ s ≠ ['.'] ∧ firstSeg s ∈ A) →
      (∀ e ∈ d, e.1 = [] ∨ ∃ n rest, e.1 = n :: rest ∧ n ∈ A) →
      ∀ e ∈ (runWalk fsys root d walk).1,
        e.1 = [] ∨ ∃ n rest, e.1 = n :: rest ∧ n ∈ A := by
  intro walk
  induction walk with
  | nil => intro d hw hd e he; exact hd e he
  | cons ev rest ih =>
    intro d hw hd e he
    have hstep := walkStep_tops fsys root A d ev h1 h2
      (hw ev (List.mem_cons_self ev rest)) hd
    unfold runWalk at he
    rcases hs : walkStep fsys root d ev with ⟨d2, oe⟩
    rw [hs] at hstep
    simp only [hs] at he
    rcases oe with _ | er
    · exact ih d2 (fun ev' hev' => hw ev' (List.mem_cons_of_mem ev hev')) hstep e he
    · exact hstep e he

theorem runWalk_creates (fsys : SrcFS) (root : List Char)
    (h1 : root ≠ ['.']) (h2 : root ≠ []) :
    ∀ (walk : List WalkEv) (d : Disk),
      (runWalk fsys root d walk).2 = none →
      ∀ ev ∈ walk, ∀ s, ev.path = root ++ '/' :: s → s ≠ [] → s ≠ ['.'] →
        (lookupD (runWalk fsys root d walk).1 [firstSeg s]).isSome = true := by
  intro walk
  induction walk with
  | nil => intro d hok ev hev; simp at hev
  | cons ev0 rest ih =>
    intro d hok ev hev s hps hs1 hs2
    unfold runWalk at hok ⊢
    rcases hs : walkStep fsys root d ev0 with ⟨d2, oe⟩
    simp only [hs] at hok ⊢
    rcases oe with _ | er
    · rcases List.mem_cons.mp hev with hev0 | hevr
      · have hcr : (lookupD d2 [firstSeg s]).isSome = true := by
          have hc := walkStep_creates fsys root d ev0 s (hev0 ▸ hps) hs1 hs2 h1 h2
            (by rw [hs])
          rw [hs] at hc
          exact hc
        exact runWalk_mono fsys root rest d2 _ hcr
      · exact ih d2 hok ev hevr s hps hs1 hs2
    · simp at hok

/-! ### Claims -/

/-- C1: the claim asserts the disengage (stop) function returned by
StartCleanupListener is idempotent.  The code violates this: the first call
succeeds (closing the `stopped` channel and stopping signal delivery), but a
second call executes `close(stopped)` on an already-closed channel, which
panics in Go — the claimed "no panic, no double-close" behaviour fails. -/
theorem c1_second_stop_panics :
    stopListener StartCleanupListener =
        .ok { stopped := .chanClosed, watching := false } ∧
    stopListener { stopped := .chanClosed, watching := false } =
        .error .closeOfClosed :=
  ⟨rfl, rfl⟩

/-- C2: if any error occurs during the walk of ExtractToTemp, the call
returns that very error together with an empty destination path (`none`) and
a nil cleanup function (`none`), and the partially populated temporary
directory has been removed before the call returns (nothing remains under
the temporary location). -/
theorem c2_walk_error_aborts_and_cleans
    (fsys : SrcFS) (root0 pfx baseDir0 tmpName : List Char)
    (walk : List WalkEv) (e : FsErr)
    (h : (runWalk fsys (normRoot root0) [([], DNode.ddir)] walk).2 = some e) :
    ExtractToTemp fsys root0 pfx baseDir0 true tmpName walk =
      { dest := none, cleanup := none, err := some e, disk := [] } := by
  simp [ExtractToTemp, h, removeAll_root]

theorem c2_walk_error_witness :
    ExtractToTemp { files := [], failRead := [] } ['a'] ['p'] [] true ['T']
        [{ path := ['a'], isDir := false, err := some (.walkAbort 7) }] =
      { dest := none, cleanup := none, err := some (.walkAbort 7), disk := [] } :=
  c2_walk_error_aborts_and_cleans _ _ _ _ _ _ _ (by decide)

/-- C3: the cleanup function returned by a successful ExtractToTemp or
ExtractFile: its first invocation recursively removes the destination
(discarding removal errors — the removal operation is total here), every
later invocation changes nothing on disk, and calling it twice in sequence
equals calling it once.  Both the directory guard and the single-file guard
are covered. -/
theorem c3_cleanup_idempotent (t : DPath) (d d2 : Disk)
    (st st2 : Option (List Nat)) :
    fireGuard { target := t, fired := false } d =
        ({ target := t, fired := true }, removeAll d t) ∧
    fireGuard { target := t, fired := true } d2 =
        ({ target := t, fired := true }, d2) ∧
    fireGuard (fireGuard { target := t, fired := false } d).1
        (fireGuard { target := t, fired := false } d).2 =
      fireGuard { target := t, fired := false } d ∧
    fireFGuard { fired := false } st = ({ fired := true }, none) ∧
    fireFGuard { fired := true } st2 = ({ fired := true }, st2) ∧
    fireFGuard (fireFGuard { fired := false } st).1
        (fireFGuard { fired := false } st).2 =
      fireFGuard { fired := false } st :=
  ⟨rfl, rfl, rfl, rfl, rfl, rfl⟩

/-- C4: extraction with the empty root string is exactly extraction with the
"." root: the whole result (destination path, cleanup, error, disk contents)
coincides, for every source filesystem, prefix, base directory and walk. -/
theorem c4_empty_root_eq_dot (fsys : SrcFS) (pfx baseDir0 tmpName : List Char)
    (mkOk : Bool) (walk : List WalkEv) :
    ExtractToTemp fsys [] pfx baseDir0 mkOk tmpName walk =
      ExtractToTemp fsys ['.'] pfx baseDir0 mkOk tmpName walk := rfl

/-- C5: the path flattening of ExtractToTemp: with root "." the walked path
is unchanged; otherwise a walked path `root ++ "/" ++ suffix` flattens to
`suffix`, and the root itself flattens to "." (inside ExtractToTemp the root
is never the empty string, having been normalized). -/
theorem c5_path_flattening (root path s : List Char) :
    relPath ['.'] path = path ∧
    (root ≠ ['.'] → root ≠ [] → relPath root (root ++ '/' :: s) = s) ∧
    (root ≠ ['.'] → root ≠ [] → relPath root root = ['.']) :=
  ⟨relPath_dot path,
   fun h1 h2 => relPath_strip root s h1 h2,
   fun h1 h2 => relPath_self root h1 h2⟩

theorem c5_path_flattening_witness :
    relPath ['.'] ['x'] = ['x'] ∧
    relPath ['r'] (['r'] ++ '/' :: ['x']) = ['x'] ∧
    relPath ['r'] ['r'] = ['.'] := by
  obtain ⟨hA, hB, hC⟩ := c5_path_flattening ['r'] ['x'] ['x']
  exact ⟨hA, hB (by decide) (by decide), hC (by decide) (by decide)⟩

/-- C7: ExtractFile is atomic in its error cases: whenever it returns an
error, the returned path is empty, the cleanup function is nil, and no
temporary file remains on disk — a failed read creates nothing, and a failed
create/write/close leaves no orphaned temp file behind. -/
theorem c7_extract_file_error_atomic (fsys : SrcFS)
    (filePath pfx baseDir0 rand : List Char) (createOk writeOk closeOk : Bool)
    (e : FsErr)
    (h : (ExtractFile fsys filePath pfx baseDir0 createOk writeOk closeOk rand).err
        = some e) :
    (ExtractFile fsys filePath pfx baseDir0 createOk writeOk closeOk rand).dest
        = none ∧
    (ExtractFile fsys filePath pfx baseDir0 createOk writeOk closeOk rand).cleanup
        = none ∧
    (ExtractFile fsys filePath pfx baseDir0 createOk writeOk closeOk rand).tmpFile
        = none := by
  rcases hr : readFileFS fsys filePath with e0 | data <;>
    rcases createOk <;> rcases writeOk <;> rcases closeOk <;>
      simp [ExtractFile, hr, osRemove] at h ⊢

theorem c7_extract_file_error_witness :
    (ExtractFile { files := [], failRead := [] } ['f'] ['p'] [] true true true
        ['R']).dest = none ∧
    (ExtractFile { files := [], failRead := [] } ['f'] ['p'] [] true true true
        ['R']).cleanup = none ∧
    (ExtractFile { files := [], failRead := [] } ['f'] ['p'] [] true true true
        ['R']).tmpFile = none :=
  c7_extract_file_error_atomic _ _ _ _ _ _ _ _
    (.readCtx ['f'] (.notFound ['f'])) (by decide)

/-- C9: when the listener fires on a registered signal, the process exit
status is 128 plus the signal's number (all three registered signals carry
their POSIX number), and the fixed fallback status 1 is used when the
signal's numeric form is unavailable; the status never depends on the
registered path or the disk state. -/
theorem c9_signal_exit_status :
    (∀ (dir : DPath) (d : Disk), ∀ sig ∈ registeredSignals,
        ∃ n, sig = GoSignal.posix n ∧ (listenerFire dir d sig).2 = 128 + n) ∧
    (∀ (dir : DPath) (d : Disk), (listenerFire dir d GoSignal.nonPosix).2 = 1) := by
  constructor
  · intro dir d sig hs
    simp only [registeredSignals, osInterrupt, sigterm, sighup, List.mem_cons,
      List.not_mem_nil, or_false] at hs
    rcases hs with h | h | h <;> subst h
    · exact ⟨2, rfl, rfl⟩
    · exact ⟨15, rfl, rfl⟩
    · exact ⟨1, rfl, rfl⟩
  · intro dir d
    rfl

theorem c9_signal_exit_status_witness :
    ∃ n, sigterm = GoSignal.posix n ∧ (listenerFire [] [] sigterm).2 = 128 + n :=
  c9_signal_exit_status.1 [] [] sigterm (by decide)

/-- C10: when the root refers to an existing file node, the walk consists of
that single file event; the flattening maps it to ".", so the file write
targets the temporary directory itself and fails, the cleanup fires, and
ExtractToTemp returns the error with an empty path, a nil cleanup function
and nothing left on disk. -/
theorem c10_file_root_fails (fsys : SrcFS) (root0 pfx baseDir0 tmpName : List Char)
    (data : List Nat)
    (h : readFileFS fsys (normRoot root0) = .ok data) :
    ExtractToTemp fsys root0 pfx baseDir0 true tmpName
        [{ path := normRoot root0, isDir := false, err := none }] =
      { dest := none, cleanup := none, err := some (.isADirErr []), disk := [] } := by
  have hroot : normRoot root0 ≠ [] := by
    unfold normRoot
    split <;> simp_all
  have hrel : relPath (normRoot root0) (normRoot root0) = ['.'] := by
    by_cases hdot : normRoot root0 = ['.']
    · rw [hdot]; exact relPath_dot ['.']
    · exact relPath_self _ hdot hroot
  have hstep : walkStep fsys (normRoot root0) [([], DNode.ddir)]
      { path := normRoot root0, isDir := false, err := none } =
      ([([], DNode.ddir)], some (.isADirErr [])) := by
    unfold walkStep
    simp [hrel, h, joinTmp, mkdirAll, mkdirSegs, writeFile, lookupD]
  have hrun : runWalk fsys (normRoot root0) [([], DNode.ddir)]
      [{ path := normRoot root0, isDir := false, err := none }] =
      ([([], DNode.ddir)], some (.isADirErr [])) := by
    unfold runWalk
    rw [hstep]
  simp [ExtractToTemp, hrun, removeAll_root]

theorem c10_file_root_witness :
    ExtractToTemp { files := [(['f'], [1])], failRead := [] } ['f'] ['p'] []
        true ['T'] [{ path := ['f'], isDir := false, err := none }] =
      { dest := none, cleanup := none, err := some (.isADirErr []), disk := [] } :=
  c10_file_root_fails { files := [(['f'], [1])], failRead := [] } ['f'] ['p'] []
    ['T'] [1] rfl

/-- C6 (amended): for a directory root (root not "." and not empty) and a
walk shaped as fs.WalkDir delivers it (the root's own directory event plus
events strictly below `root ++ "/"`), extraction creates no destination
entry for the root's own event, and the destination's top level contains
exactly the walked children of the root: every top-level entry is named by a
walked child, and on success every walked child has its top-level entry.
(The original claim's stronger "no entry named after the root's own
segment" fails when the root has a child of the same name; see the
counterexample.) -/
theorem c6_top_level_exactly_children
    (fsys : SrcFS) (root pfx baseDir0 tmpName : List Char) (walk : List WalkEv)
    (h1 : root ≠ ['.']) (h2 : root ≠ [])
    (hw : ∀ ev ∈ walk, (ev.path = root ∧ ev.isDir = true) ∨
        ∃ s, ev.path = root ++ '/' :: s ∧ s ≠ [] ∧ s ≠ ['.']) :
    (∀ d : Disk,
      walkStep fsys root d { path := root, isDir := true, err := none } = (d, none)) ∧
    (∀ n : Seg,
      (lookupD (ExtractToTemp fsys root pfx baseDir0 true tmpName walk).disk
          [n]).isSome = true →
      n ∈ walkChildren root walk) ∧
    ((ExtractToTemp fsys root pfx baseDir0 true tmpName walk).err = none →
      ∀ n ∈ walkChildren root walk,
        (lookupD (ExtractToTemp fsys root pfx baseDir0 true tmpName walk).disk
            [n]).isSome = true) := by
  have hnr : normRoot root = root := by
    unfold normRoot
    rw [if_neg h2]
  have hchild : ∀ (ev : WalkEv) (s : List Char), ev.path = root ++ '/' :: s →
      childOf root ev = some (firstSeg s) := by
    intro ev s hps
    unfold childOf
    rw [hps, List.append_cons root '/' s, cutPfx_append]
  have hrootev : ∀ (ev : WalkEv), ev.path = root → childOf root ev = none := by
    intro ev hp
    unfold childOf
    rw [hp, cutPfx_too_long root '/' []]
  refine ⟨?_, ?_, ?_⟩
  · intro d
    unfold walkStep
    simp
  · intro n hn
    rcases hres : (runWalk fsys root [([], DNode.ddir)] walk).2 with _ | e
    · have hext : ExtractToTemp fsys root pfx baseDir0 true tmpName walk =
          { dest := some tmpName, cleanup := some { target := [], fired := false },
            err := none, disk := (runWalk fsys root [([], DNode.ddir)] walk).1 } := by
        simp [ExtractToTemp, hnr, hres]
      rw [hext] at hn
      rcases lookupD_isSome_mem hn with ⟨nd, hmem⟩
      have hA : ∀ ev ∈ walk, (ev.path = root ∧ ev.isDir = true) ∨
          ∃ s, ev.path = root ++ '/' :: s ∧ s ≠ [] ∧ s ≠ ['.'] ∧
            firstSeg s ∈ walkChildren root walk := by
        intro ev hev
        rcases hw ev hev with hr | ⟨s, hps, hs1, hs2⟩
        · exact Or.inl hr
        · refine Or.inr ⟨s, hps, hs1, hs2, ?_⟩
          exact List.mem_filterMap.mpr ⟨ev, hev, hchild ev s hps⟩
      have hd0 : ∀ e ∈ ([([], DNode.ddir)] : Disk),
          e.1 = [] ∨ ∃ n' rest, e.1 = n' :: rest ∧ n' ∈ walkChildren root walk := by
        intro e he
        rw [List.mem_singleton.mp he]
        exact Or.inl rfl
      have htop := runWalk_tops fsys root (walkChildren root walk) h1 h2 walk
        [([], DNode.ddir)] hA hd0 ([n], nd) hmem
      rcases htop with hnil | ⟨n', rest', heq, hmemA⟩
      · simp at hnil
      · have heq' : [n] = n' :: rest' := heq
        injection heq' with hhead htail
        rw [hhead]
        exact hmemA
    · have hext : ExtractToTemp fsys root pfx baseDir0 true tmpName walk =
          { dest := none, cleanup := none, err := some e, disk := [] } := by
        simp [ExtractToTemp, hnr, hres, removeAll_root]
      rw [hext] at hn
      simp [lookupD] at hn
  · intro herr n hnmem
    rcases hres : (runWalk fsys root [([], DNode.ddir)] walk).2 with _ | e
    · have hext : ExtractToTemp fsys root pfx baseDir0 true tmpName walk =
          { dest := some tmpName, cleanup := some { target := [], fired := false },
            err := none, disk := (runWalk fsys root [([], DNode.ddir)] walk).1 } := by
        simp [ExtractToTemp, hnr, hres]
      rw [hext]
      rcases List.mem_filterMap.mp hnmem with ⟨ev, hev, hoc⟩
      rcases hw ev hev with ⟨hp, -⟩ | ⟨s, hps, hs1, hs2⟩
      · rw [hrootev ev hp] at hoc
        exact absurd hoc (by simp)
      · rw [hchild ev s hps] at hoc
        injection hoc with hfs
        rw [← hfs]
        exact runWalk_creates fsys root h1 h2 walk [([], DNode.ddir)] hres
          ev hev s hps hs1 hs2
    · have hext : ExtractToTemp fsys root pfx baseDir0 true tmpName walk =
          { dest := none, cleanup := none, err := some e, disk := [] } := by
        simp [ExtractToTemp, hnr, hres, removeAll_root]
      rw [hext] at herr
      simp at herr

theorem c6_top_level_witness :
    (lookupD (ExtractToTemp { files := [(['r','/','x'], [7])], failRead := [] }
        ['r'] ['p'] [] true ['T']
        [ { path := ['r'], isDir := true, err := none },
          { path := ['r','/','x'], isDir := false, err := none } ]).disk
      [['x']]).isSome = true := by
  have hmain := c6_top_level_exactly_children
    { files := [(['r','/','x'], [7])], failRead := [] } ['r'] ['p'] [] ['T']
    [ { path := ['r'], isDir := true, err := none },
      { path := ['r','/','x'], isDir := false, err := none } ]
    (by decide) (by decide)
    (by
      intro ev hev
      rcases List.mem_cons.mp hev with h | h
      · exact Or.inl (by rw [h]; exact ⟨rfl, rfl⟩)
      · rcases List.mem_cons.mp h with h' | h'
        · exact Or.inr ⟨['x'], by rw [h']; rfl, by decide, by decide⟩

        · simp at h')
  exact hmain.2.2 (by rfl) ['x'] (by decide)

/-- C6 counterexample: with root "a" and a source whose root directory
contains a child file also named "a" (source path "a/a"), a successful
extraction leaves a top-level destination entry literally named "a" — the
root's own segment — so the claim's "no entry named after the root's own
segment" is false at this input (the entry is simply the root's child). -/
theorem c6_root_segment_reappears :
    (ExtractToTemp { files := [(['a','/','a'], [65])], failRead := [] } ['a'] ['p'] []
        true ['T'] [ { path := ['a'], isDir := true, err := none },
                     { path := ['a','/','a'], isDir := false, err := none } ]).err
      = none ∧
    lookupD (ExtractToTemp { files := [(['a','/','a'], [65])], failRead := [] }
        ['a'] ['p'] [] true ['T']
        [ { path := ['a'], isDir := true, err := none },
          { path := ['a','/','a'], isDir := false, err := none } ]).disk [['a']] =
      some (.dfile [65]) := by
  constructor <;> rfl

theorem splitLastStar_none {a : List Char} (h : '*' ∉ a) : splitLastStar a = none := by
  induction a with
  | nil => rfl
  | cons c rest ih =>
    have hc : ¬ c = '*' := fun hh => h (by simp [hh])
    have hr : '*' ∉ rest := fun hm => h (List.mem_cons_of_mem c hm)
    simp [splitLastStar, ih hr, hc]

theorem splitLastStar_last {a : List Char} (x : List Char) (h : '*' ∉ a) :
    splitLastStar (x ++ '*' :: a) = some (x, a) := by
  induction x with
  | nil => simp [splitLastStar, splitLastStar_none h]
  | cons c cs ih => simp [splitLastStar, ih]

theorem applyPat_no_star_ext {ext : List Char} (pfx rand : List Char)
    (h : '*' ∉ ext) :
    applyPat (pfx ++ '-' :: '*' :: ext) rand = pfx ++ '-' :: (rand ++ ext) := by
  have hshape : pfx ++ '-' :: '*' :: ext = (pfx ++ ['-']) ++ '*' :: ext := by
    simp
  unfold applyPat
  rw [hshape, splitLastStar_last (pfx ++ ['-']) h]
  simp

theorem extRev_no_dot {rv : List Char} (acc : List Char) (h : '.' ∉ rv) :
    extRev rv acc = [] := by
  induction rv generalizing acc with
  | nil => rfl
  | cons c rest ih =>
    have hc : ¬ c = '.' := fun hh => h (by simp [hh])
    have hr : '.' ∉ rest := fun hm => h (List.mem_cons_of_mem c hm)
    by_cases hsl : c = '/'
    · simp [extRev, hc, hsl]
    · simp [extRev, hc, hsl, ih _ hr]

theorem extOf_no_dot {b : List Char} (h : '.' ∉ b) : extOf b = [] := by
  unfold extOf
  exact extRev_no_dot [] (by simpa using h)

theorem extRev_dot {rv : List Char} (rest acc : List Char)
    (h1 : '.' ∉ rv) (h2 : '/' ∉ rv) :
    extRev (rv ++ '.' :: rest) acc = '.' :: (rv.reverse ++ acc) := by
  induction rv generalizing acc with
  | nil => simp [extRev]
  | cons c cs ih =>
    have hc1 : ¬ c = '.' := fun hh => h1 (by simp [hh])
    have hc2 : ¬ c = '/' := fun hh => h2 (by simp [hh])
    have hr1 : '.' ∉ cs := fun hm => h1 (List.mem_cons_of_mem c hm)
    have hr2 : '/' ∉ cs := fun hm => h2 (List.mem_cons_of_mem c hm)
    simp [extRev, hc1, hc2, ih (c :: acc) hr1 hr2]

theorem extOf_last_dot {v : List Char} (u : List Char)
    (h1 : '.' ∉ v) (h2 : '/' ∉ v) :
    extOf (u ++ '.' :: v) = '.' :: v := by
  unfold extOf
  have hrw : (u ++ '.' :: v).reverse = v.reverse ++ '.' :: u.reverse := by
    simp
  rw [hrw, extRev_dot u.reverse [] (by simpa using h1) (by simpa using h2)]
  simp

theorem extRev_slash {rb : List Char} (rest acc : List Char) (h : '/' ∉ rb) :
    extRev (rb ++ '/' :: rest) acc = extRev rb acc := by
  induction rb generalizing acc with
  | nil => simp [extRev]
  | cons c cs ih =>
    have hc : ¬ c = '/' := fun hh => h (by simp [hh])
    have hr : '/' ∉ cs := fun hm => h (List.mem_cons_of_mem c hm)
    by_cases hd : c = '.'
    · simp [extRev, hd]
    · simp [extRev, hd, hc, ih (c :: acc) hr]

theorem extOf_base {b : List Char} (dp : List Char) (h : '/' ∉ b) :
    extOf (dp ++ '/' :: b) = extOf b := by
  unfold extOf
  have hrw : (dp ++ '/' :: b).reverse = b.reverse ++ '/' :: dp.reverse := by
    simp
  rw [hrw, extRev_slash dp.reverse [] (by simpa using h)]

/-- C8 (amended): the temporary file name produced by ExtractFile is the
caller's prefix, a "-" separator, the random component, then the extension
of the source path — PROVIDED the extension contains no `*` (os.CreateTemp
substitutes the random string for the last `*` of the whole pattern, so a
`*` inside the extension shifts the random component; see the
counterexample).  The extension is filepath.Ext: for a path `dir ++ "/" ++
base` it depends only on `base`; it is the suffix of the base name from its
last dot, and empty when the base name has no dot. -/
theorem c8_temp_file_name (fsys : SrcFS)
    (filePath pfx baseDir0 rand dp b u v : List Char) (data : List Nat)
    (hread : readFileFS fsys filePath = .ok data)
    (hstar : '*' ∉ extOf filePath) :
    (ExtractFile fsys filePath pfx baseDir0 true true true rand).dest =
      some (pfx ++ '-' :: (rand ++ extOf filePath)) ∧
    ('/' ∉ b → extOf (dp ++ '/' :: b) = extOf b) ∧
    ('.' ∉ v → '/' ∉ v → extOf (u ++ '.' :: v) = '.' :: v) ∧
    ('.' ∉ b → extOf b = []) := by
  refine ⟨?_, fun hb => extOf_base dp hb,
    fun hd hsl => extOf_last_dot u hd hsl, fun hb => extOf_no_dot hb⟩
  simp [ExtractFile, hread, applyPat_no_star_ext pfx rand hstar]

theorem c8_temp_file_name_witness :
    (ExtractFile { files := [(['a','.','t'], [9])], failRead := [] }
        ['a','.','t'] ['p'] [] true true true ['R']).dest =
      some (['p'] ++ '-' :: (['R'] ++ extOf ['a','.','t'])) ∧
    extOf (['d'] ++ '/' :: ['b']) = extOf ['b'] ∧
    extOf (['a'] ++ '.' :: ['t']) = '.' :: ['t'] ∧
    extOf ['b'] = [] := by
  obtain ⟨hA, hB, hC, hD⟩ := c8_temp_file_name
    { files := [(['a','.','t'], [9])], failRead := [] }
    ['a','.','t'] ['p'] [] ['R'] ['d'] ['b'] ['a'] ['t'] [9] rfl (by decide)
  exact ⟨hA, hB (by decide), hC (by decide) (by decide), hD (by decide)⟩

/-- C8 counterexample: for the source file "a.b*c" (a valid fs path), the
extension is ".b*c"; os.CreateTemp replaces the LAST `*` of the pattern
"p-*.b*c", so the generated name is "p-*.bRc", not the claimed
prefix ++ "-" ++ random ++ extension (which would be "p-R.b*c"). -/
theorem c8_star_extension_cx :
    (ExtractFile { files := [(['a','.','b','*','c'], [9])], failRead := [] }
        ['a','.','b','*','c'] ['p'] [] true true true ['R']).dest =
      some ['p', '-', '*', '.', 'b', 'R', 'c'] ∧
    (['p', '-', '*', '.', 'b', 'R', 'c'] : List Char) ≠
      ['p'] ++ '-' :: (['R'] ++ extOf ['a','.','b','*','c']) := by
  constructor
  · rfl
  · decide
